import Mathlib

/-!  Shallow embedding of the move-selection core of `src/agent.h` from the
2584 (Fibonacci 2048-like) agent framework, together with theorems about the
random/greedy/heuristic selectors, the depth-limited tree search, the board
evaluation heuristic, the environment tile generator and the configuration
parsing.  The board interface (`board.h`) and the action value type
(`action.h`) are external collaborators that are not part of the verified
sources; their small surface is modelled from the design document and each
such definition is marked `Modelled from the spec`.  -/

namespace Agent2584

/-- A board is a 4x4 grid of tile levels; level 0 is an empty cell.
Position `i` denotes row `i / 4`, column `i % 4`, as in `board.h`. -/
abbrev Board : Type := Fin 16 → Nat

/-- Modelled from the spec: `board.h` (absent from the sources) exposes an
in-place 90-degree rotation `rotate_left`.  `rotIdx i` is the old position
whose cell lands at position `i` after one counterclockwise rotation: the new
cell at row `r`, column `c` is the old cell at row `c`, column `3 - r`. -/
def rotIdx (i : Fin 16) : Fin 16 :=
  ⟨4 * (i.val % 4) + (3 - i.val / 4), by omega⟩

/-- Modelled from the spec: the board interface's in-place 90-degree rotation
(`board::rotate_left`), as a function on board values. -/
def rotate_left (b : Board) : Board := fun i => b (rotIdx i)

/-- `rotN n b` is `b` after `n` successive left rotations. -/
def rotN : Nat → Board → Board
  | 0, b => b
  | n + 1, b => rotN n (rotate_left b)

/-- Modelled from the spec: `board::map_to_fibonacci`, the "fixed increasing
nonlinear mapping from a cell's raw level to a score contribution"
(Fibonacci-like growth per the external-interface description; in the 2584
game level `n` carries the `n`-th Fibonacci value 1, 2, 3, 5, 8, ...). -/
def map_to_fibonacci : Nat → Nat
  | 0 => 0
  | 1 => 1
  | 2 => 2
  | n + 3 => map_to_fibonacci (n + 2) + map_to_fibonacci (n + 1)

/-- Modelled from the spec: the external board interface consumed by the
agents.  `slide b op` simulates a move in direction `op` on a value copy of
`b`: `none` models the INVALID reward sentinel (-1), and a legal move returns
the post-slide board together with its immediate reward (rewards are
non-negative per the interface description, so they are carried as `Nat`). -/
structure BoardOps where
  slide : Board → Fin 4 → Option (Board × Nat)

/-- The single scoring line of `player::tuples`: positions {0, 1, 2, 3}. -/
def tuple0 : Fin 4 → Fin 16 := fun i => ⟨i.val, by omega⟩

/-- `player::tuples`, the list of scoring lines (a single line). -/
def tuples : List (Fin 4 → Fin 16) := [tuple0]

/-- Loop of `player::cal_decreasing_score`: walk the line positions
`1, 2, 3`, accumulating the Fibonacci weight of each visited cell, returning
0 as soon as two adjacent cells are equal, and recording in the two flags
whether every step so far was strictly decreasing resp. increasing. -/
def decGo (t : Fin 4 → Fin 16) (after : Board) :
    List (Fin 4) → Int → Bool → Bool → Int
  | [], score, is_dec, is_inc => if is_dec || is_inc then score else 0
  | i :: rest, score, is_dec, is_inc =>
    let score' := score + (map_to_fibonacci (after (t i)) : Int)
    if after (t i) = after (t (i - 1)) then 0
    else if after (t i) > after (t (i - 1)) then decGo t after rest score' false is_inc
    else decGo t after rest score' is_dec false

/-- `player::cal_decreasing_score`. -/
def cal_decreasing_score (t : Fin 4 → Fin 16) (after : Board) : Int :=
  decGo t after [1, 2, 3] 0 true true

/-- `player::cal_space_score`: 5 points per empty cell. -/
def cal_space_score (after : Board) : Int :=
  (((List.finRange 16).countP (fun i => after i == 0) : Nat) : Int) * 5

/-- Inner loop of `player::evaluate_board` for one scoring line: four times,
add the line's run score and rotate the working board left in place. -/
def evalTupleLoop (acc : Int × Board) (t : Fin 4 → Fin 16) : Int × Board :=
  (List.range 4).foldl (fun a _ => (a.1 + cal_decreasing_score t a.2, rotate_left a.2)) acc

/-- `player::evaluate_board`, state-passing: the board is received by
reference and rotated in place, so the result carries both the score and the
board as the caller observes it after the call. -/
def evaluate_board (after : Board) : Int × Board :=
  let r := tuples.foldl evalTupleLoop (0, after)
  (r.1 + cal_space_score r.2, r.2)

/-- `player::cal_maxtile_score` (defined in the source but never invoked by
the evaluation path). -/
def cal_maxtile_score (after : Board) : Int :=
  let step := fun (acc : Nat × Option (Fin 16)) (i : Fin 16) =>
    if after i > acc.1 then (after i, Option.some i) else acc
  let r := (List.finRange 16).foldl step (0, Option.none)
  match r.2 with
  | Option.some pos =>
    if pos.val = 0 ∨ pos.val = 3 ∨ pos.val = 12 ∨ pos.val = 15 then (r.1 : Int) else 0
  | Option.none => 0

/-- Loop of `player::tree_search` over the four directions: `rc` is the
recursive call at the next depth.  An illegal direction leaves `score = 0`
and folds `score + reward = 0 + (-1)` into the running maximum; a legal one
folds `score + reward` with `score = reward + rc after`. -/
def tsGo (ops : BoardOps) (game : Board) (rc : Board → Int) :
    List (Fin 4) → Int → Int
  | [], best_score => best_score
  | op :: rest, best_score =>
    match ops.slide game op with
    | Option.none => tsGo ops game rc rest (max best_score ((0 : Int) + (-1)))
    | Option.some (after, reward) =>
      let score : Int := (reward : Int) + rc after
      tsGo ops game rc rest (max best_score (score + (reward : Int)))

/-- `player::tree_search`, state-passing on the by-reference board argument:
at depth 0 it returns `evaluate_board` (whose in-place rotations act on the
caller's board), otherwise it explores the four directions on value copies
and the caller's board is untouched. -/
def tree_search (ops : BoardOps) : Nat → Board → Int × Board
  | 0, game => evaluate_board game
  | d + 1, game => (tsGo ops game (fun b => (tree_search ops d b).1) [0, 1, 2, 3] 0, game)

/-- What one direction contributes to the running maximum of
`player::tree_search` at depth `d + 1`, read off from the source loop. -/
def tree_branch (ops : BoardOps) (d : Nat) (game : Board) (op : Fin 4) : Int :=
  match ops.slide game op with
  | Option.none => (0 : Int) + (-1)
  | Option.some (after, reward) => ((reward : Int) + (tree_search ops d after).1) + (reward : Int)

/-- What one direction contributes according to the specification's wording:
a legal direction contributes its immediate reward plus the search value of
the resulting board one depth lower, an illegal one contributes exactly 0. -/
def claimed_branch (ops : BoardOps) (d : Nat) (game : Board) (op : Fin 4) : Int :=
  match ops.slide game op with
  | Option.none => 0
  | Option.some (after, reward) => (reward : Int) + (tree_search ops d after).1

/-- The action value produced by the agents (`action.h`, external):
a slide, a tile placement, or the null action. -/
inductive Action where
  | none : Action
  | slide : Fin 4 → Action
  | place : Fin 16 → Nat → Action
  deriving DecidableEq

/-- Loop of `player::random_action`: return the first direction of the
(shuffled) order whose simulated slide is legal. -/
def randGo (ops : BoardOps) (before : Board) : List (Fin 4) → Action
  | [] => Action.none
  | op :: rest =>
    match ops.slide before op with
    | Option.some _ => Action.slide op
    | Option.none => randGo ops before rest

/-- `player::random_action`; the shuffled direction order drawn from the
random engine is passed in explicitly. -/
def random_action (ops : BoardOps) (opcode_shuffled : List (Fin 4)) (before : Board) : Action :=
  randGo ops before opcode_shuffled

/-- Loop of `player::greedy_action`: track the maximum immediate reward and
its direction, updating on `max_reward <= reward` (the `best_op = -1`
sentinel is `Option.none`). -/
def greedyLoop (ops : BoardOps) (before : Board) :
    List (Fin 4) → Nat → Option (Fin 4) → Nat × Option (Fin 4)
  | [], max_reward, best_op => (max_reward, best_op)
  | op :: rest, max_reward, best_op =>
    match ops.slide before op with
    | Option.none => greedyLoop ops before rest max_reward best_op
    | Option.some (_, reward) =>
      if max_reward ≤ reward then greedyLoop ops before rest reward (Option.some op)
      else greedyLoop ops before rest max_reward best_op

/-- `player::greedy_action`. -/
def greedy_action (ops : BoardOps) (before : Board) : Action :=
  match (greedyLoop ops before [0, 1, 2, 3] 0 Option.none).2 with
  | Option.some best_op => Action.slide best_op
  | Option.none => Action.none

/-- Loop of `player::heuristic_action`: like the greedy loop, but scoring a
legal direction by `reward + critic` with `critic = tree_search(after)` at
the default search depth 1. -/
def heurLoop (ops : BoardOps) (before : Board) :
    List (Fin 4) → Int → Option (Fin 4) → Int × Option (Fin 4)
  | [], max_score, best_op => (max_score, best_op)
  | op :: rest, max_score, best_op =>
    match ops.slide before op with
    | Option.none => heurLoop ops before rest max_score best_op
    | Option.some (after, reward) =>
      let critic : Int := (tree_search ops 1 after).1
      if max_score ≤ (reward : Int) + critic then
        heurLoop ops before rest ((reward : Int) + critic) (Option.some op)
      else heurLoop ops before rest max_score best_op

/-- `player::heuristic_action`. -/
def heuristic_action (ops : BoardOps) (before : Board) : Action :=
  match (heurLoop ops before [0, 1, 2, 3] 0 Option.none).2 with
  | Option.some best_op => Action.slide best_op
  | Option.none => Action.none

/-- `player::player` stores the raw constructor argument string in
`play_type`. -/
def play_type (args : String) : String := args

/-- The three strategy modes of the dispatcher. -/
inductive Mode where
  | random : Mode
  | greedy : Mode
  | heuristic : Mode
  deriving DecidableEq

/-- Which selector `player::take_action` dispatches to, as a function of the
stored `play_type` string. -/
def player_mode (args : String) : Mode :=
  if play_type args = "greedy" then Mode.greedy
  else if play_type args = "heuristic" then Mode.heuristic
  else Mode.random

/-- `player::take_action`: dispatch on `play_type`.  The shuffled direction
order consumed by the random selector is passed in explicitly. -/
def player_take_action (args : String) (ops : BoardOps)
    (opcode_shuffled : List (Fin 4)) (before : Board) : Action :=
  if play_type args = "greedy" then greedy_action ops before
  else if play_type args = "heuristic" then heuristic_action ops before
  else random_action ops opcode_shuffled before

/-- `player::take_action`, state-passing: the caller's board is received by
const reference and every trial slide acts on a value copy, so the pair also
returns the board the caller observes after the call. -/
def player_take_action_st (args : String) (ops : BoardOps)
    (opcode_shuffled : List (Fin 4)) (before : Board) : Action × Board :=
  (player_take_action args ops opcode_shuffled before, before)

/-- Loop of `rndenv::take_action`: scan the (shuffled) position order, skip
occupied cells, and place a tile on the first empty cell: tile level 1 if the
uniform 0..9 draw is nonzero, level 2 if it is zero. -/
def rndGo (after : Board) (draw : Nat) : List (Fin 16) → Action
  | [] => Action.none
  | pos :: rest =>
    if after pos ≠ 0 then rndGo after draw rest
    else Action.place pos (if draw ≠ 0 then 1 else 2)

/-- `rndenv::take_action`; the shuffled position order and the uniform 0..9
draw consumed from the random engine are passed in explicitly. -/
def rndenv_take_action (after : Board) (space_shuffled : List (Fin 16)) (draw : Nat) : Action :=
  rndGo after draw space_shuffled

/-- The tile rule exactly as the specification words it: draws 0..8 give the
low tile (level 1), draw 9 gives the high tile (level 2). -/
def claimed_tile (draw : Nat) : Nat := if draw ≤ 8 then 1 else 2

/-- Character-level whitespace splitting (the accumulator holds the current
token reversed). -/
def splitWsGo : List Char → List Char → List String
  | [], cur => [String.mk cur.reverse]
  | c :: cs, cur =>
    if c.isWhitespace then String.mk cur.reverse :: splitWsGo cs []
    else splitWsGo cs (c :: cur)

/-- `agent::agent` tokenization: `stringstream >> pair` splits the
configuration string on whitespace runs. -/
def tokens (s : String) : List String :=
  (splitWsGo s.data []).filter (fun t => t ≠ "")

/-- The key of one `key=value` token: everything before the first `=`. -/
def pairKey (pair : String) : String :=
  String.mk (pair.data.takeWhile (fun c => c ≠ '='))

/-- The value of one `key=value` token: everything after the first `=`; when
no `=` occurs, `find` yields `npos` and `substr(npos + 1)` wraps around to
the whole token. -/
def pairValue (pair : String) : String :=
  if pair.data.contains '=' then String.mk ((pair.data.dropWhile (fun c => c ≠ '=')).drop 1)
  else pair

/-- Assignment `meta[key] = value` on the ordered map, as an association
list: replace the existing entry for the key, or add one. -/
def mapInsert : List (String × String) → String → String → List (String × String)
  | [], k, v => [(k, v)]
  | (k', v') :: rest, k, v =>
    if k' = k then (k, v) :: rest else (k', v') :: mapInsert rest k v

/-- `agent::agent` prepends the default pairs to its argument string. -/
def full_config (args : String) : String := "name=unknown role=unknown " ++ args

/-- The property map built by `agent::agent` from a constructor argument
string. -/
def agent_meta (args : String) : List (String × String) :=
  (tokens (full_config args)).foldl
    (fun m pair => mapInsert m (pairKey pair) (pairValue pair)) []

/-- How the random engine of a `random_agent` ends up initialized:
default-constructed, or seeded from the `seed` property. -/
inductive EngineInit where
  | defaultInit : EngineInit
  | seeded : Int → EngineInit
  deriving DecidableEq

/-- Modelled from the spec: the numeric coercion (`std::stod` plus integer
cast) applied to the stored string; it fails on a non-numeric string. -/
def stodInt (s : String) : Option Int := s.toInt?

/-- `random_agent::random_agent`: seed the engine only when the `seed` key
exists in the parsed property map; a failure of the numeric coercion is the
only failure mode. -/
def random_agent_init (args : String) : Except String EngineInit :=
  match (agent_meta args).lookup ("seed") with
  | Option.none => Except.ok EngineInit.defaultInit
  | Option.some v =>
    match stodInt v with
    | Option.some n => Except.ok (EngineInit.seeded n)
    | Option.none => Except.error ("stod")

/-- The scoring line read on board `b` is strictly increasing. -/
abbrev lineStrictInc (t : Fin 4 → Fin 16) (b : Board) : Prop :=
  b (t 0) < b (t 1) ∧ b (t 1) < b (t 2) ∧ b (t 2) < b (t 3)

/-- The scoring line read on board `b` is strictly decreasing. -/
abbrev lineStrictDec (t : Fin 4 → Fin 16) (b : Board) : Prop :=
  b (t 1) < b (t 0) ∧ b (t 2) < b (t 1) ∧ b (t 3) < b (t 2)

/-- A fully occupied checkerboard of levels 1 and 2: no empty cell, no two
adjacent equal cells, and no monotonic line under any rotation. -/
def cb : Board := fun i => if (i.val / 4 + i.val % 4) % 2 = 0 then 1 else 2

/-- The empty board. -/
def zeroB : Board := fun _ => 0

/-- A board whose first row is the strictly decreasing line 4, 3, 2, 1 and
whose other cells are empty. -/
def bd5 : Board := fun i =>
  if i.val = 0 then 4
  else if i.val = 1 then 3
  else if i.val = 2 then 2
  else if i.val = 3 then 1
  else 0

/-- A concrete slide semantics with a single legal direction 0 of reward 1. -/
def wOps1 : BoardOps :=
  ⟨fun _ op => if op = 0 then Option.some (cb, 1) else Option.none⟩

/-- A concrete slide semantics with legal directions 0 (reward 1) and
2 (reward 3). -/
def wOps2 : BoardOps :=
  ⟨fun _ op =>
    if op = 0 then Option.some (cb, 1)
    else if op = 2 then Option.some (cb, 3)
    else Option.none⟩

/-- A concrete slide semantics with no legal direction. -/
def wOpsNone : BoardOps := ⟨fun _ _ => Option.none⟩

lemma rotIdx_four : ∀ i : Fin 16, rotIdx (rotIdx (rotIdx (rotIdx i))) = i := by decide

lemma rotate_left_four (b : Board) :
    rotate_left (rotate_left (rotate_left (rotate_left b))) = b := by
  funext i
  show b (rotIdx (rotIdx (rotIdx (rotIdx i)))) = b i
  rw [rotIdx_four]

lemma evaluate_board_eq (b : Board) :
    evaluate_board b =
      (cal_decreasing_score tuple0 b + cal_decreasing_score tuple0 (rotate_left b) +
        cal_decreasing_score tuple0 (rotate_left (rotate_left b)) +
        cal_decreasing_score tuple0 (rotate_left (rotate_left (rotate_left b))) +
        cal_space_score b, b) := by
  have h4 := rotate_left_four b
  have hr : List.range 4 = [0, 1, 2, 3] := rfl
  simp only [evaluate_board, tuples, evalTupleLoop, hr, List.foldl_cons, List.foldl_nil]
  simp [h4]

lemma cal_space_score_of_full (b : Board) (hfull : ∀ i : Fin 16, b i ≠ 0) :
    cal_space_score b = 0 := by
  have h : (List.finRange 16).countP (fun i => b i == 0) = 0 := by
    rw [List.countP_eq_zero]
    intro i _
    simpa using hfull i
  simp [cal_space_score, h]

lemma countP_update_not_mem (b : Board) (p : Fin 16) (v : Nat) :
    ∀ l : List (Fin 16), p ∉ l →
      l.countP (fun i => Function.update b p v i == 0) = l.countP (fun i => b i == 0) := by
  intro l
  induction l with
  | nil => intro _; rfl
  | cons a l ih =>
    intro hp
    have ha : a ≠ p := by rintro rfl; exact hp (List.mem_cons_self a l)
    have hrest : p ∉ l := fun hm => hp (List.mem_cons_of_mem a hm)
    simp only [List.countP_cons, ih hrest, Function.update_noteq ha]

lemma countP_update_zero_mem (b : Board) (p : Fin 16) (hbp : b p ≠ 0) :
    ∀ l : List (Fin 16), l.Nodup → p ∈ l →
      l.countP (fun i => Function.update b p 0 i == 0) = l.countP (fun i => b i == 0) + 1 := by
  intro l
  induction l with
  | nil => intro _ h; cases h
  | cons a l ih =>
    intro hnd hmem
    rcases List.mem_cons.mp hmem with h | h
    · have hpl : p ∉ l := by rw [← h] at hnd; exact (List.nodup_cons.mp hnd).1
      subst h
      simp only [List.countP_cons, countP_update_not_mem b p 0 l hpl,
        Function.update_same]
      have hb : (b p == 0) = false := by simpa using hbp
      simp [hb]
    · have hnd' := (List.nodup_cons.mp hnd).2
      have hap : a ≠ p := by rintro rfl; exact (List.nodup_cons.mp hnd).1 h
      simp only [List.countP_cons, ih hnd' h, Function.update_noteq hap]
      omega

lemma cal_space_score_update (b : Board) (p : Fin 16) (hbp : b p ≠ 0) :
    cal_space_score (Function.update b p 0) = cal_space_score b + 5 := by
  have h := countP_update_zero_mem b p hbp (List.finRange 16)
    (List.nodup_finRange 16) (List.mem_finRange p)
  simp only [cal_space_score, h]
  push_cast
  ring

lemma cal_decreasing_score_of_not_mono (t : Fin 4 → Fin 16) (b : Board)
    (hinc : ¬ lineStrictInc t b) (hdec : ¬ lineStrictDec t b) :
    cal_decreasing_score t b = 0 := by
  unfold lineStrictInc at hinc
  unfold lineStrictDec at hdec
  have e1 : (1 : Fin 4) - 1 = 0 := rfl
  have e2 : (2 : Fin 4) - 1 = 1 := rfl
  have e3 : (3 : Fin 4) - 1 = 2 := rfl
  simp only [cal_decreasing_score, decGo, e1, e2, e3]
  split_ifs <;> first | rfl | omega | simp_all

lemma greedyLoop_fst_mono (ops : BoardOps) (b : Board) :
    ∀ (l : List (Fin 4)) (mr : Nat) (bo : Option (Fin 4)),
      mr ≤ (greedyLoop ops b l mr bo).1 := by
  intro l
  induction l with
  | nil => intro mr bo; exact Nat.le_refl mr
  | cons op rest ih =>
    intro mr bo
    simp only [greedyLoop]
    rcases h : ops.slide b op with _ | ⟨a, r⟩
    · exact ih mr bo
    · by_cases hle : mr ≤ r
      · simp only [if_pos hle]
        exact Nat.le_trans hle (ih r (Option.some op))
      · simp only [if_neg hle]
        exact ih mr bo

lemma greedyLoop_some_stable (ops : BoardOps) (b : Board) :
    ∀ (l : List (Fin 4)) (mr : Nat) (x : Fin 4),
      ∃ y, (greedyLoop ops b l mr (Option.some x)).2 = Option.some y := by
  intro l
  induction l with
  | nil => intro mr x; exact ⟨x, rfl⟩
  | cons op rest ih =>
    intro mr x
    simp only [greedyLoop]
    rcases h : ops.slide b op with _ | ⟨a, r⟩
    · exact ih mr x
    · by_cases hle : mr ≤ r
      · simp only [if_pos hle]; exact ih r op
      · simp only [if_neg hle]; exact ih mr x

lemma greedyLoop_reward (ops : BoardOps) (b : Board) :
    ∀ (l : List (Fin 4)) (mr : Nat) (bo : Option (Fin 4)),
      (∀ x, bo = Option.some x → ∃ a, ops.slide b x = Option.some (a, mr)) →
      ∀ op, (greedyLoop ops b l mr bo).2 = Option.some op →
        ∃ a, ops.slide b op = Option.some (a, (greedyLoop ops b l mr bo).1) := by
  intro l
  induction l with
  | nil =>
    intro mr bo hbo op hop
    exact hbo op hop
  | cons q rest ih =>
    intro mr bo hbo op hop
    rcases h : ops.slide b q with _ | ⟨a, r⟩
    · simp only [greedyLoop, h] at hop ⊢
      exact ih mr bo hbo op hop
    · by_cases hle : mr ≤ r
      · simp only [greedyLoop, h, if_pos hle] at hop ⊢
        refine ih r (Option.some q) ?_ op hop
        intro x hx
        injection hx with hqx
        subst hqx
        exact ⟨a, h⟩
      · simp only [greedyLoop, h, if_neg hle] at hop ⊢
        exact ih mr bo hbo op hop

lemma greedyLoop_dominates (ops : BoardOps) (b : Board) :
    ∀ (l : List (Fin 4)) (mr : Nat) (bo : Option (Fin 4)) (op : Fin 4) (a : Board) (r : Nat),
      op ∈ l → ops.slide b op = Option.some (a, r) → r ≤ (greedyLoop ops b l mr bo).1 := by
  intro l
  induction l with
  | nil => intro mr bo op a r hmem; cases hmem
  | cons q rest ih =>
    intro mr bo op a r hmem hsl
    rcases List.mem_cons.mp hmem with rfl | hmem'
    · simp only [greedyLoop, hsl]
      by_cases hle : mr ≤ r
      · rw [if_pos hle]
        exact greedyLoop_fst_mono ops b rest r (Option.some op)
      · rw [if_neg hle]
        exact Nat.le_trans (Nat.le_of_lt (Nat.lt_of_not_le hle))
          (greedyLoop_fst_mono ops b rest mr bo)
    · rcases h : ops.slide b q with _ | ⟨a', r'⟩
      · simp only [greedyLoop, h]
        exact ih mr bo op a r hmem' hsl
      · by_cases hle : mr ≤ r'
        · simp only [greedyLoop, h, if_pos hle]
          exact ih r' (Option.some q) op a r hmem' hsl
        · simp only [greedyLoop, h, if_neg hle]
          exact ih mr bo op a r hmem' hsl

lemma greedyLoop_snd_none (ops : BoardOps) (b : Board) :
    ∀ (l : List (Fin 4)) (mr : Nat) (bo : Option (Fin 4)),
      (bo = Option.none → mr = 0) →
      ((greedyLoop ops b l mr bo).2 = Option.none ↔
        (bo = Option.none ∧ ∀ op ∈ l, ops.slide b op = Option.none)) := by
  intro l
  induction l with
  | nil =>
    intro mr bo _
    simp [greedyLoop]
  | cons q rest ih =>
    intro mr bo hmr
    rcases h : ops.slide b q with _ | ⟨a, r⟩
    · simp only [greedyLoop, h]
      rw [ih mr bo hmr]
      simp [List.forall_mem_cons, h]
    · by_cases hle : mr ≤ r
      · obtain ⟨y, hy⟩ := greedyLoop_some_stable ops b rest r q
        simp only [greedyLoop, h, if_pos hle, hy, List.forall_mem_cons]
        simp [h]
      · rcases hbo : bo with _ | x
        · exfalso
          have := hmr hbo
          omega
        · obtain ⟨y, hy⟩ := greedyLoop_some_stable ops b rest mr x
          simp only [greedyLoop, h, if_neg hle, hy, List.forall_mem_cons]
          simp [h]

lemma greedyLoop_best_mono (ops : BoardOps) (b : Board) :
    ∀ (l : List (Fin 4)) (mr : Nat) (x y : Fin 4),
      l.Pairwise (· < ·) → (∀ q ∈ l, x < q) →
      (greedyLoop ops b l mr (Option.some x)).2 = Option.some y → x ≤ y := by
  intro l
  induction l with
  | nil =>
    intro mr x y _ _ h
    injection h with e
    exact e ▸ le_refl x
  | cons q rest ih =>
    intro mr x y hpw hlt hres
    have hpw' := (List.pairwise_cons.mp hpw).2
    have hq0lt := (List.pairwise_cons.mp hpw).1
    rcases h : ops.slide b q with _ | ⟨a, r⟩
    · simp only [greedyLoop, h] at hres
      exact ih mr x y hpw' (fun q' hq' => hlt q' (List.mem_cons_of_mem _ hq')) hres
    · by_cases hle : mr ≤ r
      · simp only [greedyLoop, h, if_pos hle] at hres
        have hqy : q ≤ y := ih r q y hpw' hq0lt hres
        exact le_of_lt (lt_of_lt_of_le (hlt q (List.mem_cons_self q rest)) hqy)
      · simp only [greedyLoop, h, if_neg hle] at hres
        exact ih mr x y hpw' (fun q' hq' => hlt q' (List.mem_cons_of_mem _ hq')) hres

lemma greedyLoop_last_argmax (ops : BoardOps) (b : Board) :
    ∀ (l : List (Fin 4)) (mr : Nat) (bo : Option (Fin 4)),
      l.Pairwise (· < ·) →
      (bo = Option.none → mr = 0) →
      (∀ x, bo = Option.some x → ∀ q ∈ l, x < q) →
      ∀ op, (greedyLoop ops b l mr bo).2 = Option.some op →
      ∀ q a, q ∈ l → ops.slide b q = Option.some (a, (greedyLoop ops b l mr bo).1) →
        q ≤ op := by
  intro l
  induction l with
  | nil => intro mr bo _ _ _ op _ q a hq; cases hq
  | cons q0 rest ih =>
    intro mr bo hpw hmr hlt op hop q a hq hsl
    have hpw' := (List.pairwise_cons.mp hpw).2
    have hq0lt := (List.pairwise_cons.mp hpw).1
    rcases h : ops.slide b q0 with _ | ⟨a0, r0⟩
    · simp only [greedyLoop, h] at hop hsl
      rcases List.mem_cons.mp hq with rfl | hq'
      · rw [h] at hsl; cases hsl
      · exact ih mr bo hpw' hmr
          (fun x hx q' hq'' => hlt x hx q' (List.mem_cons_of_mem _ hq''))
          op hop q a hq' hsl
    · by_cases hle : mr ≤ r0
      · simp only [greedyLoop, h, if_pos hle] at hop hsl
        rcases List.mem_cons.mp hq with rfl | hq'
        · exact greedyLoop_best_mono ops b rest r0 q op hpw' hq0lt hop
        · refine ih r0 (Option.some q0) hpw' (fun hc => by cases hc) ?_ op hop q a hq' hsl
          intro x hx
          injection hx with e
          subst e
          exact hq0lt
      · rcases hbo : bo with _ | x
        · exfalso
          have := hmr hbo
          omega
        · subst hbo
          simp only [greedyLoop, h, if_neg hle] at hop hsl
          rcases List.mem_cons.mp hq with rfl | hq'
          · exfalso
            have he := h.symm.trans hsl
            injection he with hpair
            have hr := congrArg Prod.snd hpair
            simp only at hr
            have hmono := greedyLoop_fst_mono ops b rest mr (Option.some x)
            omega
          · refine ih mr (Option.some x) hpw' (fun hc => by cases hc) ?_ op hop q a hq' hsl
            intro y hy
            injection hy with e
            subst e
            exact fun q' hq'' => hlt x rfl q' (List.mem_cons_of_mem _ hq'')

lemma randGo_none_iff (ops : BoardOps) (b : Board) :
    ∀ l : List (Fin 4),
      (randGo ops b l = Action.none ↔ ∀ op ∈ l, ops.slide b op = Option.none) := by
  intro l
  induction l with
  | nil => simp [randGo]
  | cons q rest ih =>
    rcases h : ops.slide b q with _ | x
    · simp only [randGo, h]
      rw [ih]
      simp [List.forall_mem_cons, h]
    · simp only [randGo, h, List.forall_mem_cons]
      constructor
      · intro hc; cases hc
      · rintro ⟨hq, _⟩; cases hq

lemma randGo_slide (ops : BoardOps) (b : Board) :
    ∀ (l : List (Fin 4)) (op : Fin 4),
      randGo ops b l = Action.slide op → op ∈ l ∧ ops.slide b op ≠ Option.none := by
  intro l
  induction l with
  | nil => intro op h; cases h
  | cons q rest ih =>
    intro op h
    rcases hs : ops.slide b q with _ | x
    · simp only [randGo, hs] at h
      obtain ⟨h1, h2⟩ := ih op h
      exact ⟨List.mem_cons_of_mem _ h1, h2⟩
    · simp only [randGo, hs] at h
      injection h with e
      subst e
      refine ⟨List.mem_cons_self _ _, ?_⟩
      rw [hs]
      intro hc
      cases hc

lemma randGo_shape (ops : BoardOps) (b : Board) :
    ∀ l : List (Fin 4),
      randGo ops b l = Action.none ∨ ∃ op, randGo ops b l = Action.slide op := by
  intro l
  induction l with
  | nil => exact Or.inl rfl
  | cons q rest ih =>
    rcases h : ops.slide b q with _ | x
    · simp only [randGo, h]
      exact ih
    · simp only [randGo, h]
      exact Or.inr ⟨q, rfl⟩

lemma le_tsGo (ops : BoardOps) (g : Board) (rc : Board → Int) :
    ∀ (l : List (Fin 4)) (best : Int), best ≤ tsGo ops g rc l best := by
  intro l
  induction l with
  | nil => intro best; exact le_refl best
  | cons q rest ih =>
    intro best
    rcases h : ops.slide g q with _ | ⟨a, r⟩
    · simp only [tsGo, h]
      exact le_trans (le_max_left _ _) (ih _)
    · simp only [tsGo, h]
      exact le_trans (le_max_left _ _) (ih _)

lemma tree_search_succ_nonneg (ops : BoardOps) (d : Nat) (b : Board) :
    0 ≤ (tree_search ops (d + 1) b).1 := by
  simp only [tree_search]
  exact le_tsGo ops b _ [0, 1, 2, 3] 0

lemma tsGo_eq_foldl (ops : BoardOps) (d : Nat) (g : Board) :
    ∀ (l : List (Fin 4)) (best : Int),
      tsGo ops g (fun a => (tree_search ops d a).1) l best =
        (l.map (tree_branch ops d g)).foldl max best := by
  intro l
  induction l with
  | nil => intro best; rfl
  | cons q rest ih =>
    intro best
    rcases h : ops.slide g q with _ | ⟨a, r⟩
    · simp only [tsGo, h, List.map_cons, List.foldl_cons]
      rw [ih]
      simp [tree_branch, h]
    · simp only [tsGo, h, List.map_cons, List.foldl_cons]
      rw [ih]
      simp [tree_branch, h]

lemma heurLoop_some_stable (ops : BoardOps) (b : Board) :
    ∀ (l : List (Fin 4)) (ms : Int) (x : Fin 4),
      ∃ y, (heurLoop ops b l ms (Option.some x)).2 = Option.some y := by
  intro l
  induction l with
  | nil => intro ms x; exact ⟨x, rfl⟩
  | cons op rest ih =>
    intro ms x
    rcases h : ops.slide b op with _ | ⟨a, r⟩
    · simp only [heurLoop, h]
      exact ih ms x
    · by_cases hle : ms ≤ (r : Int) + (tree_search ops 1 a).1
      · simp only [heurLoop, h, if_pos hle]
        exact ih _ op
      · simp only [heurLoop, h, if_neg hle]
        exact ih ms x

lemma heurLoop_snd_none (ops : BoardOps) (b : Board) :
    ∀ (l : List (Fin 4)) (ms : Int) (bo : Option (Fin 4)),
      (bo = Option.none → ms = 0) →
      ((heurLoop ops b l ms bo).2 = Option.none ↔
        (bo = Option.none ∧ ∀ op ∈ l, ops.slide b op = Option.none)) := by
  intro l
  induction l with
  | nil =>
    intro ms bo _
    simp [heurLoop]
  | cons q rest ih =>
    intro ms bo hms
    rcases h : ops.slide b q with _ | ⟨a, r⟩
    · simp only [heurLoop, h]
      rw [ih ms bo hms]
      simp [List.forall_mem_cons, h]
    · by_cases hle : ms ≤ (r : Int) + (tree_search ops 1 a).1
      · obtain ⟨y, hy⟩ := heurLoop_some_stable ops b rest ((r : Int) + (tree_search ops 1 a).1) q
        simp only [heurLoop, h, if_pos hle, hy, List.forall_mem_cons]
        simp [h]
      · rcases hbo : bo with _ | x
        · exfalso
          have h0 := hms hbo
          have hc : (0 : Int) ≤ (tree_search ops 1 a).1 := tree_search_succ_nonneg ops 0 a
          have hr : (0 : Int) ≤ (r : Int) := Int.natCast_nonneg r
          omega
        · subst hbo
          obtain ⟨y, hy⟩ := heurLoop_some_stable ops b rest ms x
          simp only [heurLoop, h, if_neg hle, hy, List.forall_mem_cons]
          simp [h]

lemma heurLoop_legal (ops : BoardOps) (b : Board) :
    ∀ (l : List (Fin 4)) (ms : Int) (bo : Option (Fin 4)),
      (∀ x, bo = Option.some x → ops.slide b x ≠ Option.none) →
      ∀ op, (heurLoop ops b l ms bo).2 = Option.some op →
        ops.slide b op ≠ Option.none := by
  intro l
  induction l with
  | nil =>
    intro ms bo hbo op hop
    exact hbo op hop
  | cons q rest ih =>
    intro ms bo hbo op hop
    rcases h : ops.slide b q with _ | ⟨a, r⟩
    · simp only [heurLoop, h] at hop
      exact ih ms bo hbo op hop
    · by_cases hle : ms ≤ (r : Int) + (tree_search ops 1 a).1
      · simp only [heurLoop, h, if_pos hle] at hop
        refine ih _ (Option.some q) ?_ op hop
        intro x hx
        injection hx with e
        subst e
        rw [h]
        intro hc
        cases hc
      · simp only [heurLoop, h, if_neg hle] at hop
        exact ih ms bo hbo op hop

lemma rndGo_eq_find (after : Board) (draw : Nat) :
    ∀ space : List (Fin 16),
      rndGo after draw space =
        (match space.find? (fun p => after p == 0) with
          | Option.some pos => Action.place pos (if draw ≠ 0 then 1 else 2)
          | Option.none => Action.none) := by
  intro space
  induction space with
  | nil => rfl
  | cons pos rest ih =>
    simp only [rndGo, List.find?]
    by_cases h : after pos = 0
    · have hb : (after pos == 0) = true := by simpa using h
      rw [hb]
      simp [h]
    · have hb : (after pos == 0) = false := by simpa using h
      rw [hb]
      simpa [h] using ih

lemma lookup_mapInsert (k' : String) :
    ∀ (m : List (String × String)) (k v : String),
      (mapInsert m k v).lookup k' =
        if k' = k then Option.some v else m.lookup k' := by
  intro m
  induction m with
  | nil =>
    intro k v
    by_cases h : k' = k
    · have hb : (k' == k) = true := by simpa using h
      simp [mapInsert, List.lookup, hb, h]
    · have hb : (k' == k) = false := by simpa using h
      simp [mapInsert, List.lookup, hb, h]
  | cons p rest ih =>
    intro k v
    obtain ⟨k0, v0⟩ := p
    by_cases h : k0 = k
    · subst h
      by_cases h' : k' = k0
      · have hb : (k' == k0) = true := by simpa using h'
        simp [mapInsert, List.lookup, hb, h']
      · have hb : (k' == k0) = false := by simpa using h'
        simp [mapInsert, List.lookup, hb, h']
    · by_cases h' : k' = k0
      · subst h'
        have hb : (k' == k') = true := by simp
        simp [mapInsert, List.lookup, hb, h]
      · have hb : (k' == k0) = false := by simpa using h'
        simp [mapInsert, List.lookup, h, hb, ih]

lemma lookup_foldl_insert_none (key : String) :
    ∀ (ts : List String) (m : List (String × String)),
      m.lookup key = Option.none → (∀ p ∈ ts, pairKey p ≠ key) →
      (ts.foldl (fun m pair => mapInsert m (pairKey pair) (pairValue pair)) m).lookup key
        = Option.none := by
  intro ts
  induction ts with
  | nil => intro m hm _; exact hm
  | cons p rest ih =>
    intro m hm hks
    simp only [List.foldl_cons]
    refine ih _ ?_ (fun q hq => hks q (List.mem_cons_of_mem _ hq))
    rw [lookup_mapInsert key, if_neg (fun hc => hks p (List.mem_cons_self p rest) hc.symm)]
    exact hm

lemma greedy_action_none_iff (ops : BoardOps) (b : Board) :
    greedy_action ops b = Action.none ↔
      (greedyLoop ops b [0, 1, 2, 3] 0 Option.none).2 = Option.none := by
  unfold greedy_action
  rcases h : (greedyLoop ops b [0, 1, 2, 3] 0 Option.none).2 with _ | x <;> simp [h]

lemma greedy_action_slide_iff (ops : BoardOps) (b : Board) (op : Fin 4) :
    greedy_action ops b = Action.slide op ↔
      (greedyLoop ops b [0, 1, 2, 3] 0 Option.none).2 = Option.some op := by
  unfold greedy_action
  rcases h : (greedyLoop ops b [0, 1, 2, 3] 0 Option.none).2 with _ | x <;> simp [h]

lemma heuristic_action_none_iff (ops : BoardOps) (b : Board) :
    heuristic_action ops b = Action.none ↔
      (heurLoop ops b [0, 1, 2, 3] 0 Option.none).2 = Option.none := by
  unfold heuristic_action
  rcases h : (heurLoop ops b [0, 1, 2, 3] 0 Option.none).2 with _ | x <;> simp [h]

lemma heuristic_action_slide_iff (ops : BoardOps) (b : Board) (op : Fin 4) :
    heuristic_action ops b = Action.slide op ↔
      (heurLoop ops b [0, 1, 2, 3] 0 Option.none).2 = Option.some op := by
  unfold heuristic_action
  rcases h : (heurLoop ops b [0, 1, 2, 3] 0 Option.none).2 with _ | x <;> simp [h]

/-- Claim C9: the strategy mode is the entire raw constructor argument
string: `player::take_action` dispatches to the greedy selector iff `args`
equals "greedy" exactly, to the heuristic selector iff `args` equals
"heuristic" exactly, and to the random selector for every other string,
including strings that merely contain the mode word such as
"name=x greedy". -/
theorem claim_C9 :
    ∀ (args : String) (ops : BoardOps) (perm : List (Fin 4)) (b : Board),
      (player_mode args = Mode.greedy ↔ args = "greedy") ∧
      (player_mode args = Mode.heuristic ↔ args = "heuristic") ∧
      (player_mode args = Mode.random ↔ (args ≠ "greedy" ∧ args ≠ "heuristic")) ∧
      player_take_action args ops perm b =
        (match player_mode args with
          | Mode.greedy => greedy_action ops b
          | Mode.heuristic => heuristic_action ops b
          | Mode.random => random_action ops perm b) ∧
      player_mode ("name=x greedy") = Mode.random := by
  intro args ops perm b
  refine ⟨?_, ?_, ?_, ?_, by decide⟩
  · unfold player_mode play_type
    split_ifs with h1 h2 <;> simp [h1]
  · unfold player_mode play_type
    split_ifs with h1 h2 <;> simp_all
  · unfold player_mode play_type
    split_ifs with h1 h2 <;> simp_all
  · unfold player_take_action player_mode play_type
    split_ifs <;> rfl

/-- Claim C10: `evaluate_board` leaves its by-reference board argument equal
to its value before the call: it applies `rotate_left` exactly four times per
scoring line, which restores the original orientation. -/
theorem claim_C10 (b : Board) : (evaluate_board b).2 = b ∧ rotN 4 b = b := by
  constructor
  · rw [evaluate_board_eq]
  · exact rotate_left_four b

/-- Claim C7: `player::take_action` (in any of the three modes) leaves the
caller's board unchanged: the board is taken by const reference, every trial
slide in selection and search acts on an independent copy, and the in-place
rotations of the search's terminal evaluation restore the board they act
on. -/
theorem claim_C7 :
    ∀ (args : String) (ops : BoardOps) (perm : List (Fin 4)) (b : Board),
      (player_take_action_st args ops perm b).2 = b ∧
      (∀ (d : Nat) (g : Board), (tree_search ops d g).2 = g) := by
  intro args ops perm b
  refine ⟨rfl, ?_⟩
  intro d g
  cases d with
  | zero =>
    show (evaluate_board g).2 = g
    rw [evaluate_board_eq]
  | succ d => rfl

/-- Claim C6: on a board with zero empty cells whose scoring line is not
strictly monotonic under any of the four rotations, `evaluate_board` returns
exactly 0. -/
theorem claim_C6 (b : Board) (hfull : ∀ i : Fin 16, b i ≠ 0)
    (hlines : ∀ k : Fin 4,
      ¬ lineStrictInc tuple0 (rotN k.val b) ∧ ¬ lineStrictDec tuple0 (rotN k.val b)) :
    (evaluate_board b).1 = 0 := by
  have h0 : ¬ lineStrictInc tuple0 b ∧ ¬ lineStrictDec tuple0 b := hlines 0
  have h1 : ¬ lineStrictInc tuple0 (rotate_left b) ∧
      ¬ lineStrictDec tuple0 (rotate_left b) := hlines 1
  have h2 : ¬ lineStrictInc tuple0 (rotate_left (rotate_left b)) ∧
      ¬ lineStrictDec tuple0 (rotate_left (rotate_left b)) := hlines 2
  have h3 : ¬ lineStrictInc tuple0 (rotate_left (rotate_left (rotate_left b))) ∧
      ¬ lineStrictDec tuple0 (rotate_left (rotate_left (rotate_left b))) := hlines 3
  rw [evaluate_board_eq]
  dsimp only
  rw [cal_decreasing_score_of_not_mono _ _ h0.1 h0.2,
    cal_decreasing_score_of_not_mono _ _ h1.1 h1.2,
    cal_decreasing_score_of_not_mono _ _ h2.1 h2.2,
    cal_decreasing_score_of_not_mono _ _ h3.1 h3.2,
    cal_space_score_of_full b hfull]
  norm_num

/-- Witness for C6: the checkerboard of levels 1 and 2 is fully occupied, no
rotation makes the scoring line strictly monotonic, and its evaluation is
0. -/
theorem claim_C6_witness :
    (∀ i : Fin 16, cb i ≠ 0) ∧
    (∀ k : Fin 4,
      ¬ lineStrictInc tuple0 (rotN k.val cb) ∧ ¬ lineStrictDec tuple0 (rotN k.val cb)) ∧
    (evaluate_board cb).1 = 0 :=
  ⟨by decide, by decide, claim_C6 cb (by decide) (by decide)⟩

/-- Claim C8: for every configuration string whose tokens contain no `seed`
key, agent construction succeeds without a missing-key failure and the
random engine is default-constructed. -/
theorem claim_C8 (args : String)
    (h : ∀ p ∈ tokens (full_config args), pairKey p ≠ "seed") :
    random_agent_init args = Except.ok EngineInit.defaultInit := by
  have hl : (agent_meta args).lookup ("seed") = Option.none := by
    unfold agent_meta
    exact lookup_foldl_insert_none ("seed") (tokens (full_config args)) [] rfl h
  unfold random_agent_init
  rw [hl]

/-- Witness for C8: the configuration string "greedy" has no `seed` key and
yields a default-constructed engine. -/
theorem claim_C8_witness :
    (∀ p ∈ tokens (full_config ("greedy")), pairKey p ≠ "seed") ∧
    random_agent_init ("greedy") = Except.ok EngineInit.defaultInit :=
  ⟨by decide, claim_C8 ("greedy") (by decide)⟩

/-- Claim C3: the greedy selector returns the null action iff no direction
is legal; otherwise it returns a slide action whose immediate reward is the
maximum immediate reward over all legal directions, ties resolved in favor
of the last such direction in the order 0..3 (the `>=` update test). -/
theorem claim_C3 :
    ∀ (ops : BoardOps) (b : Board),
      (greedy_action ops b = Action.none ↔ ∀ op : Fin 4, ops.slide b op = Option.none) ∧
      (∀ op : Fin 4, greedy_action ops b = Action.slide op →
        ∃ (a : Board) (r : Nat), ops.slide b op = Option.some (a, r) ∧
          (∀ (q : Fin 4) (a' : Board) (r' : Nat),
            ops.slide b q = Option.some (a', r') → r' ≤ r) ∧
          (∀ (q : Fin 4) (a' : Board),
            ops.slide b q = Option.some (a', r) → q ≤ op)) := by
  intro ops b
  have hpw : ([0, 1, 2, 3] : List (Fin 4)).Pairwise (· < ·) := by decide
  have hmem : ∀ op : Fin 4, op ∈ ([0, 1, 2, 3] : List (Fin 4)) := by decide
  constructor
  · rw [greedy_action_none_iff,
      greedyLoop_snd_none ops b [0, 1, 2, 3] 0 Option.none (fun _ => rfl)]
    constructor
    · rintro ⟨_, hall⟩ op
      exact hall op (hmem op)
    · intro h
      exact ⟨rfl, fun op _ => h op⟩
  · intro op hop
    rw [greedy_action_slide_iff] at hop
    obtain ⟨a, ha⟩ := greedyLoop_reward ops b [0, 1, 2, 3] 0 Option.none
      (fun x hx => by cases hx) op hop
    refine ⟨a, (greedyLoop ops b [0, 1, 2, 3] 0 Option.none).1, ha, ?_, ?_⟩
    · intro q a' r' hsl
      exact greedyLoop_dominates ops b [0, 1, 2, 3] 0 Option.none q a' r' (hmem q) hsl
    · intro q a' hsl
      exact greedyLoop_last_argmax ops b [0, 1, 2, 3] 0 Option.none hpw (fun _ => rfl)
        (fun x hx => by cases hx) op hop q a' (hmem q) hsl

/-- Witness for C3: under `wOps2` (direction 0 has reward 1, direction 2 has
reward 3) the greedy selector picks direction 2, whose reward dominates. -/
theorem claim_C3_witness :
    ∃ (a : Board) (r : Nat), wOps2.slide cb 2 = Option.some (a, r) ∧
      (∀ (q : Fin 4) (a' : Board) (r' : Nat),
        wOps2.slide cb q = Option.some (a', r') → r' ≤ r) ∧
      (∀ (q : Fin 4) (a' : Board),
        wOps2.slide cb q = Option.some (a', r) → q ≤ 2) :=
  (claim_C3 wOps2 cb).2 2 (by decide)

/-- Claim C4: on a board with at least one legal direction each of the
random, greedy and heuristic selectors returns a slide action for a legal
direction; on a board with no legal direction all three return the null
action.  The random selector's shuffled direction order is an arbitrary
permutation of 0..3. -/
theorem claim_C4 (ops : BoardOps) (b : Board) (perm : List (Fin 4))
    (hperm : perm.Perm ([0, 1, 2, 3] : List (Fin 4))) :
    ((∃ op, ops.slide b op ≠ Option.none) →
      ((∃ op, random_action ops perm b = Action.slide op ∧ ops.slide b op ≠ Option.none) ∧
       (∃ op, greedy_action ops b = Action.slide op ∧ ops.slide b op ≠ Option.none) ∧
       (∃ op, heuristic_action ops b = Action.slide op ∧ ops.slide b op ≠ Option.none))) ∧
    ((∀ op, ops.slide b op = Option.none) →
      (random_action ops perm b = Action.none ∧ greedy_action ops b = Action.none ∧
        heuristic_action ops b = Action.none)) := by
  have hmem4 : ∀ op : Fin 4, op ∈ ([0, 1, 2, 3] : List (Fin 4)) := by decide
  constructor
  · rintro ⟨op0, hop0⟩
    refine ⟨?_, ?_, ?_⟩
    · have hne : randGo ops b perm ≠ Action.none := by
        intro hno
        rw [randGo_none_iff] at hno
        exact hop0 (hno op0 (hperm.mem_iff.mpr (hmem4 op0)))
      rcases randGo_shape ops b perm with hsh | ⟨op, hsl⟩
      · exact absurd hsh hne
      · obtain ⟨_, hleg⟩ := randGo_slide ops b perm op hsl
        exact ⟨op, hsl, hleg⟩
    · have hne : (greedyLoop ops b [0, 1, 2, 3] 0 Option.none).2 ≠ Option.none := by
        intro hno
        rw [greedyLoop_snd_none ops b [0, 1, 2, 3] 0 Option.none (fun _ => rfl)] at hno
        exact hop0 (hno.2 op0 (hmem4 op0))
      rcases hsnd : (greedyLoop ops b [0, 1, 2, 3] 0 Option.none).2 with _ | op
      · exact absurd hsnd hne
      · obtain ⟨a, ha⟩ := greedyLoop_reward ops b [0, 1, 2, 3] 0 Option.none
          (fun x hx => by cases hx) op hsnd
        refine ⟨op, ?_, ?_⟩
        · rw [greedy_action_slide_iff]
          exact hsnd
        · rw [ha]
          intro hc
          cases hc
    · have hne : (heurLoop ops b [0, 1, 2, 3] 0 Option.none).2 ≠ Option.none := by
        intro hno
        rw [heurLoop_snd_none ops b [0, 1, 2, 3] 0 Option.none (fun _ => rfl)] at hno
        exact hop0 (hno.2 op0 (hmem4 op0))
      rcases hsnd : (heurLoop ops b [0, 1, 2, 3] 0 Option.none).2 with _ | op
      · exact absurd hsnd hne
      · refine ⟨op, ?_, ?_⟩
        · rw [heuristic_action_slide_iff]
          exact hsnd
        · exact heurLoop_legal ops b [0, 1, 2, 3] 0 Option.none
            (fun x hx => by cases hx) op hsnd
  · intro hall
    refine ⟨?_, ?_, ?_⟩
    · show randGo ops b perm = Action.none
      rw [randGo_none_iff]
      exact fun op _ => hall op
    · rw [greedy_action_none_iff,
        greedyLoop_snd_none ops b [0, 1, 2, 3] 0 Option.none (fun _ => rfl)]
      exact ⟨rfl, fun op _ => hall op⟩
    · rw [heuristic_action_none_iff,
        heurLoop_snd_none ops b [0, 1, 2, 3] 0 Option.none (fun _ => rfl)]
      exact ⟨rfl, fun op _ => hall op⟩

/-- Witness for C4: instantiated at `wOps1` (only direction 0 legal) with
the identity shuffle. -/
theorem claim_C4_witness :
    (([0, 1, 2, 3] : List (Fin 4)).Perm ([0, 1, 2, 3] : List (Fin 4))) ∧
    (((∃ op, wOps1.slide cb op ≠ Option.none) →
      ((∃ op, random_action wOps1 [0, 1, 2, 3] cb = Action.slide op ∧
          wOps1.slide cb op ≠ Option.none) ∧
       (∃ op, greedy_action wOps1 cb = Action.slide op ∧
          wOps1.slide cb op ≠ Option.none) ∧
       (∃ op, heuristic_action wOps1 cb = Action.slide op ∧
          wOps1.slide cb op ≠ Option.none))) ∧
    ((∀ op, wOps1.slide cb op = Option.none) →
      (random_action wOps1 [0, 1, 2, 3] cb = Action.none ∧
        greedy_action wOps1 cb = Action.none ∧
        heuristic_action wOps1 cb = Action.none))) :=
  ⟨List.Perm.refl _, claim_C4 wOps1 cb [0, 1, 2, 3] (List.Perm.refl _)⟩

/-- Claim C1 (amended): for every slide semantics, board and depth `d + 1`,
`tree_search` equals the maximum, starting from 0, of the four direction
contributions, where a legal direction contributes
`(reward + tree_search(after, d)) + reward` (the immediate reward is counted
twice by the source's `best_score = max(best_score, score + reward)`) and an
illegal direction contributes `0 + (-1)`; in particular the result is 0 when
no direction is legal. -/
theorem claim_C1 :
    ∀ (ops : BoardOps) (b : Board) (d : Nat),
      (tree_search ops (d + 1) b).1 =
        (([0, 1, 2, 3] : List (Fin 4)).map (tree_branch ops d b)).foldl max 0 ∧
      ((∀ op, ops.slide b op = Option.none) → (tree_search ops (d + 1) b).1 = 0) := by
  intro ops b d
  have hfold : (tree_search ops (d + 1) b).1 =
      (([0, 1, 2, 3] : List (Fin 4)).map (tree_branch ops d b)).foldl max 0 := by
    simp only [tree_search]
    exact tsGo_eq_foldl ops d b [0, 1, 2, 3] 0
  refine ⟨hfold, ?_⟩
  intro hall
  rw [hfold]
  norm_num [tree_branch, hall, List.foldl]

/-- Witness for C1: with no legal direction the depth-1 search yields 0. -/
theorem claim_C1_witness :
    (∀ op, wOpsNone.slide cb op = Option.none) ∧ (tree_search wOpsNone 1 cb).1 = 0 :=
  ⟨by decide, (claim_C1 wOpsNone cb 0).2 (by decide)⟩

/-- Counterexample for C1 as stated: under `wOps1` (direction 0 legal with
reward 1 onto the checkerboard, which evaluates to 0) the source computes
`max(0, (1 + 0) + 1) = 2`, while the claimed branch rule
`reward + tree_search(after, d - 1)` with illegal branches contributing 0
yields `max(0, 1, 0, 0, 0) = 1`. -/
theorem claim_C1_counterexample :
    (tree_search wOps1 1 cb).1 ≠
      (([0, 1, 2, 3] : List (Fin 4)).map (claimed_branch wOps1 0 cb)).foldl max 0 := by
  decide

/-- Claim C2 (amended): on a board with an empty cell the environment
generator places a tile on the first empty cell of the shuffled position
order; the tile is the low tile (level 1) exactly when the uniform 0..9 draw
is one of the nine values 1..9, and the high tile (level 2) exactly when the
draw is 0 (the source tests `popup(engine) ? 1 : 2`). -/
theorem claim_C2 (after : Board) (space_shuffled : List (Fin 16)) (draw : Nat)
    (hempty : ∃ i, after i = 0)
    (hperm : space_shuffled.Perm (List.finRange 16)) (hdraw : draw ≤ 9) :
    ∃ pos, space_shuffled.find? (fun p => after p == 0) = Option.some pos ∧
      after pos = 0 ∧
      rndenv_take_action after space_shuffled draw =
        Action.place pos (if draw = 0 then 2 else 1) ∧
      (rndenv_take_action after space_shuffled draw = Action.place pos 1 ↔
        (1 ≤ draw ∧ draw ≤ 9)) ∧
      (rndenv_take_action after space_shuffled draw = Action.place pos 2 ↔ draw = 0) := by
  obtain ⟨i, hi⟩ := hempty
  have hifind : space_shuffled.find? (fun p => after p == 0) ≠ Option.none := by
    intro hno
    rw [List.find?_eq_none] at hno
    have := hno i (hperm.mem_iff.mpr (List.mem_finRange i))
    simp [hi] at this
  rcases hfind : space_shuffled.find? (fun p => after p == 0) with _ | pos
  · exact absurd hfind hifind
  · have hpos : after pos = 0 := by
      have := List.find?_some hfind
      simpa using this
    have heq : rndenv_take_action after space_shuffled draw =
        Action.place pos (if draw ≠ 0 then 1 else 2) := by
      unfold rndenv_take_action
      rw [rndGo_eq_find, hfind]
    refine ⟨pos, rfl, hpos, ?_, ?_, ?_⟩
    · rw [heq]
      by_cases h0 : draw = 0 <;> simp [h0]
    · rw [heq]
      by_cases h0 : draw = 0
      · simp [h0]
      · simp [h0]
        omega
    · rw [heq]
      by_cases h0 : draw = 0 <;> simp [h0]

/-- Witness for C2: the empty board with the identity shuffle and draw 3
receives the low tile on cell 0. -/
theorem claim_C2_witness :
    (∃ i, zeroB i = 0) ∧
    (List.finRange 16).Perm (List.finRange 16) ∧ (3 : Nat) ≤ 9 ∧
    (∃ pos, (List.finRange 16).find? (fun p => zeroB p == 0) = Option.some pos ∧
      zeroB pos = 0 ∧
      rndenv_take_action zeroB (List.finRange 16) 3 =
        Action.place pos (if (3 : Nat) = 0 then 2 else 1) ∧
      (rndenv_take_action zeroB (List.finRange 16) 3 = Action.place pos 1 ↔
        ((1 : Nat) ≤ 3 ∧ (3 : Nat) ≤ 9)) ∧
      (rndenv_take_action zeroB (List.finRange 16) 3 = Action.place pos 2 ↔ (3 : Nat) = 0)) :=
  ⟨⟨0, rfl⟩, List.Perm.refl _, by omega,
    claim_C2 zeroB (List.finRange 16) 3 ⟨0, rfl⟩ (List.Perm.refl _) (by omega)⟩

/-- Counterexample for C2 as stated: at draw 0 the source places the high
tile (level 2), while the claimed outcome mapping (0..8 low, 9 high) would
place the low tile. -/
theorem claim_C2_counterexample :
    rndenv_take_action zeroB (List.finRange 16) 0 ≠
      Action.place 0 (claimed_tile 0) := by
  decide

/-- Claim C5 (amended): zeroing one nonzero cell adds exactly 5 through the
space bonus, so whenever the four per-rotation run scores are unchanged by
the zeroing (for instance when the cell is one of the four center cells,
which no rotation of the scoring line reads), the evaluation increases by
exactly 5.  In general the run scores may change, so the claim fails for
`evaluate_board` as stated (see the counterexample). -/
theorem claim_C5 (b : Board) (p : Fin 16) (hbp : b p ≠ 0)
    (hlines : ∀ k : Fin 4,
      cal_decreasing_score tuple0 (rotN k.val (Function.update b p 0)) =
        cal_decreasing_score tuple0 (rotN k.val b)) :
    (evaluate_board (Function.update b p 0)).1 = (evaluate_board b).1 + 5 := by
  have h0 : cal_decreasing_score tuple0 (Function.update b p 0) =
      cal_decreasing_score tuple0 b := hlines 0
  have h1 : cal_decreasing_score tuple0 (rotate_left (Function.update b p 0)) =
      cal_decreasing_score tuple0 (rotate_left b) := hlines 1
  have h2 : cal_decreasing_score tuple0 (rotate_left (rotate_left (Function.update b p 0))) =
      cal_decreasing_score tuple0 (rotate_left (rotate_left b)) := hlines 2
  have h3 : cal_decreasing_score tuple0
        (rotate_left (rotate_left (rotate_left (Function.update b p 0)))) =
      cal_decreasing_score tuple0 (rotate_left (rotate_left (rotate_left b))) := hlines 3
  rw [evaluate_board_eq, evaluate_board_eq]
  dsimp only
  rw [h0, h1, h2, h3, cal_space_score_update b p hbp]
  ring

/-- Witness for C5: zeroing the center cell 5 of the checkerboard leaves
every rotation's run score unchanged and raises the evaluation by 5. -/
theorem claim_C5_witness :
    cb (5 : Fin 16) ≠ 0 ∧
    (evaluate_board (Function.update cb (5 : Fin 16) 0)).1 = (evaluate_board cb).1 + 5 :=
  ⟨by decide, claim_C5 cb 5 (by decide) (by decide)⟩

/-- Counterexample for C5 as stated: zeroing cell 0 of the board whose first
row is 4, 3, 2, 1 destroys the strictly decreasing run, so the evaluation
moves from 66 to 65 instead of to 71. -/
theorem claim_C5_counterexample :
    bd5 (0 : Fin 16) ≠ 0 ∧
    (evaluate_board (Function.update bd5 (0 : Fin 16) 0)).1 ≠ (evaluate_board bd5).1 + 5 := by
  constructor <;> decide

end Agent2584
